import Mathlib

set_option maxRecDepth 100000

/-!
Shallow embedding of the MP4 Nachos file system core
(src/code/filesys/filehdr.{h,cc}, src/code/filesys/filesys.cc).

Pure-functional translation conventions:
* machine ints holding sector numbers are `Int` (`INVALID_SECTOR = -1` is a
  live sentinel value); sizes and counts are `Nat` (all call sites assert
  nonnegativity before use);
* a Nachos `ASSERT` failure aborts the process; it is modelled by a distinct
  `abort`/`none` outcome;
* mutable state is threaded explicitly; the C++ recursions that are bounded
  in practice (inode level is at most `LEVEL_LIMIT`, a chunk loop runs at
  most `NUM_DIRECT` times) take an explicit fuel argument so that every
  definition is structurally recursive and kernel-evaluable; exhausting the
  fuel is mapped to the abort outcome and never happens at the fuel values
  the call sites pass.
-/

/-- SectorSize of the simulated disk. `disk.h` is not part of the excerpt;
the value 128 is fixed by the comments in `filehdr.h`
(`3840 bytes ... (30 sectors)` for `NUM_DIRECT * SectorSize`). -/
def SectorSize : Nat := 128

/-- Modelled from the spec: total sector count of the disk (`disk.h` is not
in the excerpt; the spec calls it an implementation parameter and the
teaching baseline is 1024). -/
def NumSectors : Nat := 1024

/-- NUM_DIRECT = (SectorSize - 2 * sizeof(int)) / sizeof(int) = 30, from
`filehdr.h`. -/
def NUM_DIRECT : Nat := (SectorSize - 2 * 4) / 4

/-- LEVEL_LIMIT from `filehdr.h`. -/
def LEVEL_LIMIT : Nat := 4

/-- MAX_SIZE table from `filehdr.h`: the source stores the four values
MAX_SIZE_L0..MAX_SIZE_L3 with `MAX_SIZE[k] = NUM_DIRECT^(k+1) * SectorSize`;
this closed form agrees with all four table entries and is total. -/
def MAX_SIZE (k : Nat) : Nat := NUM_DIRECT ^ (k + 1) * SectorSize

/-- divRoundUp from Nachos `sysdep.h`: ceiling division on nonnegative
operands. -/
def divRoundUp (n d : Nat) : Nat := (n + d - 1) / d

/-- FileHeader::whichLv from `filehdr.cc`: the loop returns the first
level i < LEVEL_LIMIT with fileSize <= MAX_SIZE[i]; falling through the loop
hits ASSERTNOTREACHED (modelled as `none`). -/
def whichLv (fileSize : Nat) : Option Nat :=
  if fileSize ≤ MAX_SIZE 0 then some 0
  else if fileSize ≤ MAX_SIZE 1 then some 1
  else if fileSize ≤ MAX_SIZE 2 then some 2
  else if fileSize ≤ MAX_SIZE 3 then some 3
  else none

/-! ## Persistent bitmap

Modelled from the spec: `bitmap.cc` / `pbitmap.cc` are not in the excerpt.
The spec (section 4.2) fixes the semantics: a bit-vector, `find_and_set`
returns the smallest clear bit and sets it (failing with -1 when full),
`mark`/`clear` are unconditional set/clear, `test` queries, `num_clear`
counts clear bits. A bitmap value is the list of its bits,
`true` = allocated. -/

def numClear : List Bool → Nat
  | [] => 0
  | b :: rest => (if b then 0 else 1) + numClear rest

def findClear : List Bool → Option Nat
  | [] => none
  | b :: rest => if b then (findClear rest).map (· + 1) else some 0

/-- Bitmap::FindAndSet: smallest clear index, set it; (-1, unchanged) when
full. -/
def findAndSet (fm : List Bool) : Int × List Bool :=
  match findClear fm with
  | some i => (Int.ofNat i, fm.set i true)
  | none => (-1, fm)

def bmTest (fm : List Bool) (i : Nat) : Bool := fm.getD i false

def bmMark (fm : List Bool) (i : Nat) : List Bool := fm.set i true

def bmClear (fm : List Bool) (i : Nat) : List Bool := fm.set i false

/-- Clear a list of sector indices left to right. -/
def clearAll (fm : List Bool) (l : List Nat) : List Bool := l.foldl bmClear fm

/-! ## In-memory file header (inode) -/

/-- In-memory FileHeader after Allocate/FetchFrom: the disk part
(`numBytes`, `numDataSectors`, the NUM_DIRECT-slot `dataSectors` array) and
the in-core part (`children`, the flat `dataSectorMapping`). -/
inductive FileHeader where
  | mk (numBytes : Nat) (numDataSectors : Nat) (dataSectors : List Int)
       (children : List FileHeader) (mapping : List Int)

def FileHeader.numBytes : FileHeader → Nat
  | .mk n _ _ _ _ => n

def FileHeader.numDataSectors : FileHeader → Nat
  | .mk _ n _ _ _ => n

def FileHeader.dataSectors : FileHeader → List Int
  | .mk _ _ d _ _ => d

def FileHeader.children : FileHeader → List FileHeader
  | .mk _ _ _ c _ => c

def FileHeader.mapping : FileHeader → List Int
  | .mk _ _ _ _ m => m

/-- The used (non INVALID_SECTOR) leading slots of a dataSectors array:
the C++ loops `break` at the first slot equal to -1. -/
def usedSlots (l : List Int) : List Int := l.takeWhile (· ≠ -1)

/-- Pad an allocated sector list to the NUM_DIRECT on-disk slots with the
INVALID_SECTOR sentinel. -/
def padSlots (secs : List Int) : List Int :=
  secs ++ List.replicate (NUM_DIRECT - secs.length) (-1)

/-- Outcome of FileHeader::Allocate: ASSERT abort, or the C++ bool result
together with the built header and the updated bitmap. -/
inductive AllocOut where
  | abort
  | ret (ok : Bool) (fh : FileHeader) (fm : List Bool)

/-- Level-0 allocation loop of FileHeader::Allocate: grab `k` data sectors
with FindAndSet, ASSERTing each result is nonnegative. -/
def allocDirect (fm : List Bool) (k : Nat) (acc : List Int) : Option (List Int × List Bool) :=
  match k with
  | 0 => some (acc, fm)
  | k + 1 =>
    let p := findAndSet fm
    if p.1 < 0 then none
    else allocDirect p.2 k (acc ++ [p.1])

/-- The `while (fileSize > 0)` loop of FileHeader::Allocate at level > 0:
allocate a sector for the child inode, recursively allocate the child for a
chunk of at most `maxChunk` bytes, and append the child mapping to the
accumulated mapping unless the two vectors are equal by value (the C++
`if (this->dataSectorMapping != pSectors)` guard). The fuel bounds the
iteration count; NUM_DIRECT is always enough. -/
def allocLoop (alloc : List Bool → Nat → AllocOut) (maxChunk : Nat) :
    Nat → List Bool → Nat → List Int → List FileHeader → List Int →
    Option (List Int × List FileHeader × List Int × List Bool)
  | 0, fm, remaining, secs, chs, mapping =>
    if remaining = 0 then some (secs, chs, mapping, fm) else none
  | lfuel + 1, fm, remaining, secs, chs, mapping =>
    if remaining = 0 then some (secs, chs, mapping, fm)
    else
      let p := findAndSet fm
      if p.1 < 0 then none
      else
        let chunk := min remaining maxChunk
        match alloc p.2 chunk with
        | .abort => none
        | .ret _ child fm2 =>
          let mapping' := if child.mapping = mapping then mapping else mapping ++ child.mapping
          allocLoop alloc maxChunk lfuel fm2 (remaining - chunk) (secs ++ [p.1])
            (chs ++ [child]) mapping'

/-- FileHeader::Allocate from `filehdr.cc`. Sets numBytes and
numDataSectors, returns FALSE when `NumClear() < numDataSectors`
(data-sector lower bound only); otherwise allocates directly at level 0, or
chunk by chunk at level > 0 (the return value of a child Allocate is
ignored by the source). The fuel argument bounds the level recursion;
LEVEL_LIMIT is always enough because a child chunk is at most
MAX_SIZE[lv-1] and hence has a strictly smaller level. -/
def fhAllocate : Nat → List Bool → Nat → AllocOut
  | 0, _, _ => .abort
  | fuel + 1, fm, fileSize =>
    let nds := divRoundUp fileSize SectorSize
    if numClear fm < nds then
      .ret false (.mk fileSize nds (List.replicate NUM_DIRECT (-1)) [] []) fm
    else
      match whichLv fileSize with
      | none => .abort
      | some 0 =>
        match allocDirect fm nds [] with
        | none => .abort
        | some (secs, fm') =>
          .ret true (.mk fileSize nds (padSlots secs) [] secs) fm'
      | some (lv + 1) =>
        match allocLoop (fhAllocate fuel) (MAX_SIZE lv) NUM_DIRECT fm fileSize [] [] [] with
        | none => .abort
        | some (secs, chs, mapping, fm') =>
          .ret true (.mk fileSize nds (padSlots secs) chs mapping) fm'

/-! ## On-disk header records and FetchFrom -/

/-- On-disk image of one inode sector as FileHeader::FetchFrom parses it:
buf[0] = numBytes, buf[1] = numDataSectors, then the dataSectors slots. -/
structure HdrRec where
  numBytes : Nat
  numDataSectors : Nat
  dataSectors : List Int

/-- Child-fetch loop of FileHeader::FetchFrom at level > 0: fetch each
non-sentinel child slot and append its mapping to the accumulated mapping
unless the two vectors are equal by value (the C++
`if (this->dataSectorMapping != pSectors)` guard). A negative slot that is
not exactly -1 passes the sentinel test and then aborts inside ReadSector. -/
def fetchChildren (fetch : Nat → Option FileHeader) :
    List Int → List FileHeader → List Int → Option (List FileHeader × List Int)
  | [], chs, mapping => some (chs, mapping)
  | s :: rest, chs, mapping =>
    if s < 0 then none
    else
      match fetch s.toNat with
      | none => none
      | some child =>
        let mapping' := if child.mapping = mapping then mapping else mapping ++ child.mapping
        fetchChildren fetch rest (chs ++ [child]) mapping'

/-- FileHeader::FetchFrom from `filehdr.cc`: read the header sector,
recompute the level from numBytes, rebuild the in-core children and the
flat dataSectorMapping (left-to-right). The fuel bounds the recursion
depth, which the C++ leaves unbounded on a corrupt disk; LEVEL_LIMIT is
enough for every disk the system itself writes. -/
def fhFetch (hdrs : Nat → HdrRec) : Nat → Nat → Option FileHeader
  | 0, _ => none
  | fuel + 1, sector =>
    let r := hdrs sector
    match whichLv r.numBytes with
    | none => none
    | some 0 =>
      some (.mk r.numBytes r.numDataSectors r.dataSectors []
        (r.dataSectors.take r.numDataSectors))
    | some _ =>
      match fetchChildren (fhFetch hdrs fuel) (usedSlots r.dataSectors) [] [] with
      | none => none
      | some (chs, mapping) =>
        some (.mk r.numBytes r.numDataSectors r.dataSectors chs mapping)

/-- FileHeader::ByteToSector from `filehdr.cc`: translate a byte offset to
the physical sector `dataSectorMapping[offset / SectorSize]`; the ASSERT
checks the logical sector is in range and the mapping length matches
numDataSectors (`none` models the abort). -/
def byteToSector (fh : FileHeader) (offset : Nat) : Option Int :=
  if fh.mapping.length = fh.numDataSectors then fh.mapping[offset / SectorSize]?
  else none

/-! ## Deallocate -/

/-- Level-0 loop of FileHeader::Deallocate: each of the first
numDataSectors slots must hold a bit that is set (`ought to be marked!`),
and is cleared. -/
def deallocData (fm : List Bool) : List Int → Option (List Bool)
  | [] => some fm
  | s :: rest =>
    if s < 0 then none
    else if bmTest fm s.toNat then deallocData (bmClear fm s.toNat) rest
    else none

/-- Level > 0 loop of FileHeader::Deallocate: recurse into the child
headers paired with the non-sentinel dataSectors slots (ASSERT the child
exists). The child inode sectors themselves are NOT cleared by the source. -/
def deallocChildren (dealloc : FileHeader → List Bool → Option (List Bool)) :
    Nat → List FileHeader → List Bool → Option (List Bool)
  | 0, _, fm => some fm
  | _ + 1, [], _ => none
  | k + 1, c :: cs, fm =>
    match dealloc c fm with
    | none => none
    | some fm' => deallocChildren dealloc k cs fm'

/-- FileHeader::Deallocate from `filehdr.cc`, fuelled on the tree depth. -/
def fhDeallocate : Nat → FileHeader → List Bool → Option (List Bool)
  | 0, _, _ => none
  | fuel + 1, fh, fm =>
    match whichLv fh.numBytes with
    | none => none
    | some 0 => deallocData fm (fh.dataSectors.take fh.numDataSectors)
    | some _ => deallocChildren (fhDeallocate fuel) (usedSlots fh.dataSectors).length fh.children fm

/-! ## WriteBack and the disk-write trace -/

/-- One disk write performed by a facade operation, at the granularity the
spec's ordering discipline talks about: an inode sector write
(FileHeader::WriteBack), the content of a directory file
(Directory::WriteBack, tagged by the directory's header sector), or the
free bitmap file (PersistentBitmap::WriteBack). -/
inductive WEvent where
  | inode (sector : Int)
  | dirContent (sector : Int)
  | bitmap
  deriving DecidableEq, Repr

/-- Function update used for the header and directory stores. -/
def upd {α : Type} (f : Nat → α) (k : Nat) (v : α) : Nat → α :=
  fun i => if i = k then v else f i

/-- Child loop of FileHeader::WriteBack at level > 0: write each child at
its non-sentinel slot, ASSERTing the in-core child exists. -/
def wbChildren (wb : FileHeader → Int → (Nat → HdrRec) → Option ((Nat → HdrRec) × List WEvent)) :
    List Int → List FileHeader → (Nat → HdrRec) → Option ((Nat → HdrRec) × List WEvent)
  | [], _, hdrs => some (hdrs, [])
  | _ :: _, [], _ => none
  | s :: rest, c :: cs, hdrs =>
    match wb c s hdrs with
    | none => none
    | some (h1, tr1) =>
      match wbChildren wb rest cs h1 with
      | none => none
      | some (h2, tr2) => some (h2, tr1 ++ tr2)

/-- FileHeader::WriteBack from `filehdr.cc`: write the inode's own sector
first, then recurse into the children at level > 0. -/
def fhWriteBack : Nat → FileHeader → Int → (Nat → HdrRec) → Option ((Nat → HdrRec) × List WEvent)
  | 0, _, _, _ => none
  | fuel + 1, fh, sector, hdrs =>
    if sector < 0 then none
    else
      let hdrs1 := upd hdrs sector.toNat ⟨fh.numBytes, fh.numDataSectors, fh.dataSectors⟩
      match whichLv fh.numBytes with
      | none => none
      | some 0 => some (hdrs1, [.inode sector])
      | some _ =>
        match wbChildren (fhWriteBack fuel) (usedSlots fh.dataSectors) fh.children hdrs1 with
        | none => none
        | some (h2, tr) => some (h2, .inode sector :: tr)

/-! ## Directory

Modelled from the spec: `directory.cc` is not in the excerpt (only
`directory.h` is). The spec (sections 3 and 4.4) fixes the semantics used
below: `find` is a linear scan matching `inUse && name == && isDir ==`
(the type bit participates); `add` writes the first non-inUse slot and
fails only when the table is full; `remove` clears `inUse` in the matching
slot; `remove_all` recursively removes every in-use entry (child directory
first), deallocating each entry's inode data sectors and clearing the
entry's inode sector bit, then clears all entries. -/

/-- DirectoryEntry from `directory.h`. File names are lists of characters. -/
structure DirEntry where
  isDir : Bool
  inUse : Bool
  sector : Int
  name : List Char
  deriving DecidableEq, Repr

/-- NumDirEntries from `directory.h`. -/
def NumDirEntries : Nat := 64

/-- Modelled from the spec: byte size one serialized DirectoryEntry
occupies (compiler struct layout, not in the excerpt): two padded bools,
an int32 and a 10-byte name under natural alignment give 20 bytes. -/
def sizeofDirEntry : Nat := 20

/-- Modelled from the spec: Directory::Find (`directory.cc` not in the
excerpt): linear scan for an in-use entry with this name and this type
bit; INVALID_SECTOR when absent. -/
def dirFind (table : List DirEntry) (name : List Char) (isDir : Bool) : Int :=
  match table.find? (fun e => e.inUse && e.name = name && e.isDir = isDir) with
  | some e => e.sector
  | none => -1

/-- Modelled from the spec: Directory::Add (`directory.cc` not in the
excerpt): write the first non-inUse slot, fail (None) only when the table
is full. -/
def dirAdd (table : List DirEntry) (name : List Char) (sector : Int) (isDir : Bool) :
    Option (List DirEntry) :=
  match table with
  | [] => none
  | e :: rest =>
    if e.inUse then (dirAdd rest name sector isDir).map (e :: ·)
    else some (⟨isDir, true, sector, name⟩ :: rest)

/-- Modelled from the spec: Directory::Remove (`directory.cc` not in the
excerpt): clear `inUse` in the slot matching name and type; None when not
found. -/
def dirRemove (table : List DirEntry) (name : List Char) (isDir : Bool) :
    Option (List DirEntry) :=
  match table with
  | [] => none
  | e :: rest =>
    if e.inUse && e.name = name && e.isDir = isDir then some ({ e with inUse := false } :: rest)
    else (dirRemove rest name isDir).map (e :: ·)

/-- Clear the inUse flag of every entry (the table Directory::RemoveAll
leaves behind). -/
def clearEntry (e : DirEntry) : DirEntry := { e with inUse := false }

/-- Per-entry body of Directory::RemoveAll: for a child directory, first
recurse into its table; then fetch the entry's inode, deallocate its data
sectors, and clear the entry's inode sector bit. -/
def raEntries (recurse : List DirEntry → List Bool → Option (List Bool))
    (hdrs : Nat → HdrRec) (dirs : Nat → List DirEntry) :
    List DirEntry → List Bool → Option (List Bool)
  | [], fm => some fm
  | e :: rest, fm =>
    if e.inUse then
      let step :=
        if e.isDir then recurse (dirs e.sector.toNat) fm else some fm
      match step with
      | none => none
      | some fm1 =>
        if e.sector < 0 then none
        else
          match fhFetch hdrs LEVEL_LIMIT e.sector.toNat with
          | none => none
          | some fh =>
            match fhDeallocate LEVEL_LIMIT fh fm1 with
            | none => none
            | some fm2 =>
              if bmTest fm2 e.sector.toNat then
                raEntries recurse hdrs dirs rest (bmClear fm2 e.sector.toNat)
              else none
    else raEntries recurse hdrs dirs rest fm

/-- Modelled from the spec: Directory::RemoveAll (`directory.cc` not in
the excerpt), fuelled on the directory nesting depth (NumSectors is far
more than any reachable depth). Returns the bitmap after freeing every
in-use entry's subtree; the caller writes back the cleared table. -/
def removeAll (hdrs : Nat → HdrRec) (dirs : Nat → List DirEntry) :
    Nat → List DirEntry → List Bool → Option (List Bool)
  | 0, _, _ => none
  | fuel + 1, table, fm => raEntries (removeAll hdrs dirs fuel) hdrs dirs table fm

/-- Specification-side traversal mirroring which bits fhDeallocate clears:
data sectors at level 0, the first `usedSlots` children at level > 0 (the
child inode sectors themselves are not included, faithfully to the
source). -/
def deallocSectorsF : Nat → FileHeader → List Nat
  | 0, _ => []
  | fuel + 1, fh =>
    match whichLv fh.numBytes with
    | none => []
    | some 0 => (fh.dataSectors.take fh.numDataSectors).map Int.toNat
    | some _ =>
      ((fh.children.take (usedSlots fh.dataSectors).length).map (deallocSectorsF fuel)).flatten

/-- Specification-side traversal mirroring which bits removeAll clears:
for every in-use entry, the child-directory recursion, then the entry's
inode data sectors, then the entry's own inode sector. -/
def raSectorsEntries (recurse : List DirEntry → List Nat)
    (hdrs : Nat → HdrRec) (dirs : Nat → List DirEntry) : List DirEntry → List Nat
  | [] => []
  | e :: rest =>
    (if e.inUse then
      (if e.isDir then recurse (dirs e.sector.toNat) else []) ++
      (match fhFetch hdrs LEVEL_LIMIT e.sector.toNat with
       | none => []
       | some fh => deallocSectorsF LEVEL_LIMIT fh) ++ [e.sector.toNat]
    else []) ++ raSectorsEntries recurse hdrs dirs rest

/-- Fuelled top of `raSectorsEntries`, mirroring `removeAll`. -/
def raSectorsF (hdrs : Nat → HdrRec) (dirs : Nat → List DirEntry) :
    Nat → List DirEntry → List Nat
  | 0, _ => []
  | fuel + 1, table => raSectorsEntries (raSectorsF hdrs dirs fuel) hdrs dirs table

/-! ## File-system state and path resolution -/

/-- FreeMapSector and DirectorySector from `filesys.cc`. -/
def FreeMapSector : Nat := 0

def DirectorySector : Nat := 1

/-- PATH_NAME_MAX_LEN from `filesys.h`. -/
def PATH_NAME_MAX_LEN : Nat := 256

/-- FreeMapFileSize = NumSectors / BitsInByte from `filesys.cc`. -/
def FreeMapFileSize : Nat := NumSectors / 8

/-- DirectoryFileSize = sizeof(DirectoryEntry) * NumDirEntries from
`filesys.cc`. -/
def DirectoryFileSize : Nat := sizeofDirEntry * NumDirEntries

/-- Observable disk state: the inode sector images, the content of each
directory file (addressed by its header sector; the byte serialization
through the data sectors is abstracted), and the persisted free bitmap
(the content of the free-map file). -/
structure FSState where
  hdrs : Nat → HdrRec
  dirs : Nat → List DirEntry
  freeMapD : List Bool

/-- Token accumulation loop of FileFinder::splitPath: split on every
slash, pushing the token before each slash and the trailing token. -/
def splitPathGo : List Char → List Char → List (List Char) → List (List Char)
  | [], tok, acc => acc ++ [tok]
  | c :: rest, tok, acc =>
    if c = '/' then splitPathGo rest [] (acc ++ [tok])
    else splitPathGo rest (tok ++ [c]) acc

/-- FileFinder::splitPath from `filesys.cc`: the component list and the
`exceedPathLenLimit` flag (`i >= PATH_NAME_MAX_LEN` where `i` counts the
characters of the path). -/
def splitPath (s : List Char) : List (List Char) × Bool :=
  (splitPathGo s [] [], PATH_NAME_MAX_LEN ≤ s.length)

/-- Result fields of a FileFinder after `find` (exist, pFhSector,
fhSector, filename), as initialized by the constructor and updated by the
walk. -/
structure Finder where
  exist : Bool
  pFhSector : Int
  fhSector : Int
  filename : List Char
  deriving DecidableEq, Repr

/-- Outcome of FileFinder::find: an ASSERT abort, or the finder fields. -/
inductive FindOut where
  | abort
  | res (f : Finder)
  deriving DecidableEq, Repr

/-- Walk of FileFinder::find over the components after the leading empty
token: fetch the current directory's table, record it as the parent,
look the component up (forcing the DIR type on every non-terminal
component), and stop with exist = false on a miss. -/
def findLoop (dirs : Nat → List DirEntry) (isDir : Bool) :
    List (List Char) → Nat → Finder → Finder
  | [], _, f => { f with exist := true }
  | comp :: rest, cur, f =>
    let table := dirs cur
    let pFh : Int := Int.ofNat cur
    let typ := if rest = [] then isDir else true
    let fh := dirFind table comp typ
    if fh = -1 then { f with pFhSector := pFh, fhSector := -1 }
    else findLoop dirs isDir rest fh.toNat { f with pFhSector := pFh, fhSector := fh }

/-- FileFinder::find from `filesys.cc`: split the path, return silently
(exist = false) past the length limit, special-case the root path "/"
(ASSERTing the caller asked for a directory), else walk from the root
directory at sector 1. -/
def ffFind (st : FSState) (name : List Char) (isDir : Bool) : FindOut :=
  let path := (splitPath name).1
  let fname := path.getLastD []
  if (splitPath name).2 then .res ⟨false, -1, -1, fname⟩
  else if name = ['/'] then
    if isDir then .res ⟨true, -1, Int.ofNat DirectorySector, fname⟩ else .abort
  else .res (findLoop st.dirs isDir (path.drop 1) DirectorySector ⟨false, -1, -1, fname⟩)

/-! ## Facade operations -/

/-- Outcome of a mutating facade operation: ASSERT abort, or the bool
result with the new disk state and the ordered disk-write trace. -/
inductive BoolOut where
  | abort
  | ret (ok : Bool) (st : FSState) (tr : List WEvent)

/-- FileSystem::createFileOrDir from `filesys.cc`: resolve with the
requested type only; fail (no write) when the finder reports the name
exists; ASSERT the parent was found; allocate the header sector and the
file; write back the new inode tree, the parent directory, the bitmap, and
(for a directory) the new empty table - in that order. -/
def createFileOrDir (st : FSState) (name : List Char) (isDir : Bool) (initialSize : Int) :
    BoolOut :=
  match ffFind st name isDir with
  | .abort => .abort
  | .res finder =>
    if finder.exist then .ret false st []
    else if finder.pFhSector = -1 then .abort
    else
      let p := findAndSet st.freeMapD
      if p.1 < 0 then .abort
      else
        match dirAdd (st.dirs finder.pFhSector.toNat) finder.filename p.1 isDir with
        | none => .abort
        | some pTable =>
          let size : Int := if isDir then (DirectoryFileSize : Nat) else initialSize
          if size < 0 then .abort
          else
            match fhAllocate LEVEL_LIMIT p.2 size.toNat with
            | .abort => .abort
            | .ret ok fh fm2 =>
              if ok then
                match fhWriteBack LEVEL_LIMIT fh p.1 st.hdrs with
                | none => .abort
                | some (hdrs', trInode) =>
                  let st1 : FSState :=
                    ⟨hdrs', upd st.dirs finder.pFhSector.toNat pTable, fm2⟩
                  let tr := trInode ++ [.dirContent finder.pFhSector, .bitmap]
                  if isDir then
                    .ret true ⟨st1.hdrs, upd st1.dirs p.1.toNat (List.replicate NumDirEntries ⟨false, false, -1, []⟩), st1.freeMapD⟩
                      (tr ++ [.dirContent p.1])
                  else .ret true st1 tr
              else .abort

/-- FileSystem::Create. -/
def fsCreate (st : FSState) (name : List Char) (initialSize : Int) : BoolOut :=
  createFileOrDir st name false initialSize

/-- FileSystem::Mkdir (initialSize -1 is ignored for a directory). -/
def fsMkdir (st : FSState) (name : List Char) : BoolOut :=
  createFileOrDir st name true (-1)

/-- Non-recursive branch of FileSystem::Remove: resolve as a file, return
false (no write) on a miss, else clear the header sector bit, fetch and
deallocate the inode (returnSectorsToFreeMap), remove the parent entry,
and write back the bitmap first and the parent directory second. -/
def removeSingle (st : FSState) (name : List Char) : BoolOut :=
  match ffFind st name false with
  | .abort => .abort
  | .res finder =>
    if finder.exist then
      if finder.fhSector < 0 then .abort
      else if bmTest st.freeMapD finder.fhSector.toNat then
        let fm1 := bmClear st.freeMapD finder.fhSector.toNat
        match fhFetch st.hdrs LEVEL_LIMIT finder.fhSector.toNat with
        | none => .abort
        | some fh =>
          match fhDeallocate LEVEL_LIMIT fh fm1 with
          | none => .abort
          | some fm2 =>
            match dirRemove (st.dirs finder.pFhSector.toNat) finder.filename false with
            | none => .abort
            | some pTable =>
              .ret true ⟨st.hdrs, upd st.dirs finder.pFhSector.toNat pTable, fm2⟩
                [.bitmap, .dirContent finder.pFhSector]
      else .abort
    else .ret false st []

/-- FileSystem::recursivelyRemove from `filesys.cc`: resolve as a
directory; on a miss fall back to the single-file removal; otherwise run
RemoveAll on the directory's own table and write back that table and the
bitmap. The directory itself (its parent entry, its header sector, its
entry-table data sectors) is not touched. -/
def recursivelyRemove (st : FSState) (name : List Char) : BoolOut :=
  match ffFind st name true with
  | .abort => .abort
  | .res finder =>
    if finder.exist then
      if finder.fhSector < 0 then .abort
      else
        let table := st.dirs finder.fhSector.toNat
        match removeAll st.hdrs st.dirs NumSectors table st.freeMapD with
        | none => .abort
        | some fm' =>
          .ret true ⟨st.hdrs, upd st.dirs finder.fhSector.toNat (table.map clearEntry), fm'⟩
            [.dirContent finder.fhSector, .bitmap]
    else removeSingle st name

/-- FileSystem::Remove from `filesys.cc`. -/
def fsRemove (st : FSState) (name : List Char) (recursive : Bool) : BoolOut :=
  if recursive then recursivelyRemove st name else removeSingle st name

/-- Outcome of FileSystem::Open: ASSERT abort or an open handle on the
resolved header sector. -/
inductive OpenOut where
  | abort
  | handle (sector : Int)
  deriving DecidableEq, Repr

/-- FileSystem::Open from `filesys.cc`: try the file type, then the
directory type, then ASSERT `exist && fhSector >= 0`; there is no error
return. -/
def fsOpen (st : FSState) (name : List Char) : OpenOut :=
  match ffFind st name false with
  | .abort => .abort
  | .res f1 =>
    if f1.exist then
      if 0 ≤ f1.fhSector then .handle f1.fhSector else .abort
    else
      match ffFind st name true with
      | .abort => .abort
      | .res f2 =>
        if f2.exist && 0 ≤ f2.fhSector then .handle f2.fhSector else .abort

/-! ## Format and concrete scenario states -/

/-- Empty directory table as the Directory constructor builds it (all
entries not in use). -/
def emptyTable : List DirEntry := List.replicate NumDirEntries ⟨false, false, -1, []⟩

/-- Header store before any write (FetchFrom of an unwritten sector is
never relied on). -/
def baseHdr : HdrRec := ⟨0, 0, []⟩

/-- Fallback state for the branches of `formatState` that correspond to
failed ASSERTs of the constructor; format on an empty 1024-sector disk
never takes them. -/
def dummyState : FSState := ⟨fun _ => baseHdr, fun _ => [], []⟩

/-- FileSystem::FileSystem(format = TRUE) from `filesys.cc`: mark sectors
0 and 1, allocate the free-map file and the root-directory file, write
both headers back, write the empty root directory and the bitmap. -/
def formatState : FSState :=
  let fm2 := bmMark (bmMark (List.replicate NumSectors false) FreeMapSector) DirectorySector
  match fhAllocate LEVEL_LIMIT fm2 FreeMapFileSize with
  | .ret true mapHdr fm3 =>
    match fhAllocate LEVEL_LIMIT fm3 DirectoryFileSize with
    | .ret true dirHdr fm4 =>
      match fhWriteBack LEVEL_LIMIT mapHdr (Int.ofNat FreeMapSector) (fun _ => baseHdr) with
      | some (hdrs1, _) =>
        match fhWriteBack LEVEL_LIMIT dirHdr (Int.ofNat DirectorySector) hdrs1 with
        | some (hdrs2, _) =>
          ⟨hdrs2, upd (fun _ => []) DirectorySector emptyTable, fm4⟩
        | none => dummyState
      | none => dummyState
    | _ => dummyState
  | _ => dummyState

/-- Result bool of a facade operation, when it did not abort. -/
def resultOf : BoolOut → Option Bool
  | .abort => none
  | .ret b _ _ => some b

/-- Disk-write trace of a facade operation, when it did not abort. -/
def traceOf : BoolOut → Option (List WEvent)
  | .abort => none
  | .ret _ _ tr => some tr

/-- State after a facade operation, falling back to the input state on an
abort (the scenario states below only use the non-abort branch). -/
def stateAfter (o : BoolOut) (dflt : FSState) : FSState :=
  match o with
  | .ret _ s _ => s
  | .abort => dflt

/-- State after `mkdir /a` on a freshly formatted disk. -/
def st_afterMkdirA : FSState :=
  stateAfter (fsMkdir formatState ['/', 'a']) formatState

/-- State after `create /f 1` on a freshly formatted disk. -/
def st_afterCreateF : FSState :=
  stateAfter (fsCreate formatState ['/', 'f'] 1) formatState

/-- State after `mkdir /d` on a freshly formatted disk. -/
def st_afterMkdirD : FSState :=
  stateAfter (fsMkdir formatState ['/', 'd']) formatState

/-- State after `mkdir /d; create /d/e 10` on a freshly formatted disk. -/
def st_DE : FSState :=
  stateAfter (fsCreate st_afterMkdirD ['/', 'd', '/', 'e'] 10) st_afterMkdirD

/-- State after `create /big 4000` on a freshly formatted disk. -/
def st_big : FSState :=
  stateAfter (fsCreate formatState ['/', 'b', 'i', 'g'] 4000) formatState

/-- Disk state with the root directory empty and a free bitmap that has
exactly 3 clear sectors (13, 14, 15), the concrete input of the
space-exhaustion scenario. -/
def st_tight : FSState :=
  ⟨fun _ => baseHdr, upd (fun _ => []) DirectorySector emptyTable,
    List.replicate 13 true ++ List.replicate 3 false⟩

/-! ## Claim-side leaf traversal (spec formalization for comparison) -/

/-- Concatenation of a leaf traversal over a child list. -/
def joinLeaves (f : FileHeader → List Int) : List FileHeader → List Int
  | [] => []
  | c :: rest => f c ++ joinLeaves f rest

/-- The flat vector of leaf data-sector indices of an inode tree in file
order (left-to-right depth-first traversal of the leaves), as the spec
describes the rebuilt `dataSectorMapping`; fuelled like `fhFetch`. -/
def treeLeavesF : Nat → FileHeader → List Int
  | 0, _ => []
  | fuel + 1, fh =>
    match whichLv fh.numBytes with
    | none => []
    | some 0 => fh.dataSectors.take fh.numDataSectors
    | some _ => joinLeaves (treeLeavesF fuel) fh.children

/-- Aliased but loadable disk: the level-1 header at sector 100 lists the
same child sector 50 twice; the level-0 header at sector 50 maps one data
sector 7. -/
def hdrAliased : Nat → HdrRec :=
  upd (upd (fun _ => baseHdr) 100 ⟨7680, 1, [50, 50] ++ List.replicate 28 (-1)⟩)
    50 ⟨10, 1, [7] ++ List.replicate 29 (-1)⟩

/-- Header fetched from the aliased disk (total by construction; the
fallback branch is not taken). -/
def fhAliased : FileHeader :=
  match fhFetch hdrAliased LEVEL_LIMIT 100 with
  | some fh => fh
  | none => .mk 0 0 [] [] []

/-- Under-provisioned bitmap for the mid-allocation failure instance:
32 clear sectors while a 3841-byte level-1 file needs 33 (31 data + 2
child inodes). -/
def fm32 : List Bool := List.replicate 32 false

/-- Top-level bool result of an Allocate, when it did not abort. -/
def allocOk : AllocOut → Option Bool
  | .abort => none
  | .ret ok _ _ => some ok

/-- Level-1 header built by an Allocate whose last child ran out of space
(the source ignores the child's FALSE return). -/
def fhShort : FileHeader :=
  match fhAllocate LEVEL_LIMIT fm32 3841 with
  | .ret _ fh _ => fh
  | .abort => .mk 0 0 [] [] []

/-! ## Chunk arithmetic and the mapping fold (proof-side definitions) -/

/-- The fold the child loops of Allocate and FetchFrom apply to the
accumulated mapping: append each child mapping unless it equals the
accumulated vector by value. -/
def foldSkip (acc : List Int) : List (List Int) → List Int
  | [] => acc
  | m :: rest => foldSkip (if m = acc then acc else acc ++ m) rest

/-- Closed form of the left-to-right chunking of `n` bytes into pieces of
at most `maxChunk`: full chunks followed by the partial remainder. -/
def chunkSizes (maxChunk n : Nat) : List Nat :=
  List.replicate (n / maxChunk) maxChunk ++
    (if n % maxChunk = 0 then [] else [n % maxChunk])

/-- Well-formed one-file disk used by witnesses: a level-0 header at
sector 5 mapping the single data sector 7. -/
def hdrGood : Nat → HdrRec :=
  upd (fun _ => baseHdr) 5 ⟨10, 1, [7] ++ List.replicate 29 (-1)⟩

/-- Header fetched from `hdrGood` (total by construction). -/
def fhGood : FileHeader :=
  match fhFetch hdrGood LEVEL_LIMIT 5 with
  | some fh => fh
  | none => .mk 0 0 [] [] []

/-- All-free 40-sector bitmap used by the level-1 allocation witness. -/
def fm40 : List Bool := List.replicate 40 false

/-- Level-1 header built by `Allocate(fm40, 4000)` (total by
construction). -/
def fhBig40 : FileHeader :=
  match fhAllocate LEVEL_LIMIT fm40 4000 with
  | .ret _ fh _ => fh
  | .abort => .mk 0 0 [] [] []

/-- Bitmap left by `Allocate(fm40, 4000)` (total by construction). -/
def fmBig40 : List Bool :=
  match fhAllocate LEVEL_LIMIT fm40 4000 with
  | .ret _ _ fm => fm
  | .abort => []

/-! ## Concrete counterexample theorems -/

/-- C1 counterexample: on a formatted disk, `mkdir /a` succeeds, and then
`create /a 1` also succeeds (returns true) although a directory named `a`
exists in the parent - the resolver of createFileOrDir checks only the
requested type, so the claimed Exists failure does not happen. -/
theorem c1_counterexample :
    resultOf (fsMkdir formatState ['/', 'a']) = some true ∧
    resultOf (fsCreate st_afterMkdirA ['/', 'a'] 1) = some true := by
  exact ⟨rfl, rfl⟩

/-- C2 counterexample: after `format; mkdir /d; create /d/e 10`, the
recursive `remove /d` returns true, but the bit of d's own inode sector 13
is still set and the root directory still holds the entry `d -> 13`; the
bitmap does not return to its post-format state. -/
theorem c2_counterexample :
    resultOf (fsRemove st_DE ['/', 'd'] true) = some true ∧
    bmTest (stateAfter (fsRemove st_DE ['/', 'd'] true) st_DE).freeMapD 13 = true ∧
    dirFind ((stateAfter (fsRemove st_DE ['/', 'd'] true) st_DE).dirs DirectorySector) ['d'] true = 13 ∧
    bmTest formatState.freeMapD 13 = false := by
  exact ⟨rfl, rfl, rfl, rfl⟩

/-- C3: on a disk whose free bitmap has exactly 3 clear sectors,
`create /x 500` does not return false - the source hits
`ASSERT(fh->Allocate(freeMap, size))` and aborts the process. -/
theorem c3_create_noSpace_aborts :
    numClear st_tight.freeMapD = 3 ∧
    createFileOrDir st_tight ['/', 'x'] false 500 = .abort := by
  exact ⟨rfl, rfl⟩

/-- C5 counterexample: a loadable level-1 header whose two child slots
alias the same sector fetches successfully, but the rebuilt mapping [7] is
not the left-to-right leaf vector [7, 7] (the duplicate-vector guard
dropped the second child); and a level-1 Allocate on a 32-sector bitmap
for 3841 bytes returns true while its mapping misses the leaf slot of the
failed last child. -/
theorem c5_counterexample :
    (fhFetch hdrAliased LEVEL_LIMIT 100 = some fhAliased ∧
      fhAliased.mapping = [7] ∧
      treeLeavesF LEVEL_LIMIT fhAliased = [7, 7]) ∧
    (allocOk (fhAllocate LEVEL_LIMIT fm32 3841) = some true ∧
      fhShort.mapping.length = 30 ∧
      fhShort.numDataSectors = 31 ∧
      fhShort.mapping ≠ treeLeavesF LEVEL_LIMIT fhShort) := by
  refine ⟨⟨rfl, rfl, rfl⟩, rfl, rfl, rfl, ?_⟩
  decide

/-- C7 counterexample: the single-file remove writes the bitmap before the
parent directory, and mkdir writes the new directory's table after the
bitmap, so the bitmap is not always the last structure written. -/
theorem c7_counterexample :
    traceOf (fsRemove st_afterCreateF ['/', 'f'] false) =
      some [.bitmap, .dirContent 1] ∧
    traceOf (fsMkdir formatState ['/', 'a']) =
      some [.inode 13, .dirContent 1, .bitmap, .dirContent 13] := by
  exact ⟨rfl, rfl⟩

/-- C8 counterexample: on a path of exactly PATH_NAME_MAX_LEN = 256 bytes
the create operation does not fail silently - resolution reports not
found with no parent, and createFileOrDir aborts on
`ASSERT(finder.pFhSector != INVALID_SECTOR)`. -/
theorem c8_counterexample :
    ('/' :: List.replicate 255 'a').length = 256 ∧
    createFileOrDir formatState ('/' :: List.replicate 255 'a') false 1 = .abort := by
  exact ⟨rfl, rfl⟩

/-- C9 counterexample: the root path names no file, yet
`remove("/", recursive = false)` does not return false - `find` hits
`ASSERT(isDir)` and aborts. -/
theorem c9_counterexample :
    fsRemove formatState ['/'] false = .abort := by
  exact rfl

/-! ## Level selection (C4) -/

theorem MAX_SIZE_mono : ∀ {i j : Nat}, i ≤ j → MAX_SIZE i ≤ MAX_SIZE j := by
  intro i j h
  unfold MAX_SIZE
  exact Nat.mul_le_mul_right _
    (Nat.pow_le_pow_right (by norm_num [NUM_DIRECT, SectorSize]) (by omega))

/-- C4: the level chosen by whichLv for a size n is the smallest L with
n <= MAX_SIZE[L]; a size of exactly MAX_SIZE[L] stays at level L, a size
of MAX_SIZE[L] + 1 moves to level L + 1, and sizes above MAX_SIZE[3] are
rejected (ASSERTNOTREACHED). -/
theorem c4_whichLv_smallest :
    (∀ n L, whichLv n = some L ↔
      (L ≤ 3 ∧ n ≤ MAX_SIZE L ∧ ∀ K, n ≤ MAX_SIZE K → L ≤ K)) ∧
    (∀ L, L ≤ 3 → whichLv (MAX_SIZE L) = some L) ∧
    (∀ L, L < 3 → whichLv (MAX_SIZE L + 1) = some (L + 1)) ∧
    (∀ n, MAX_SIZE 3 < n → whichLv n = none) := by
  have mono := @MAX_SIZE_mono
  refine ⟨?_, ?_, ?_, ?_⟩
  · intro n L
    unfold whichLv
    split
    next h0 =>
      simp only [Option.some.injEq]
      constructor
      · rintro rfl
        exact ⟨by omega, h0, fun K _ => Nat.zero_le K⟩
      · rintro ⟨_, _, hmin⟩
        have := hmin 0 h0
        omega
    next h0 =>
      split
      next h1 =>
        simp only [Option.some.injEq]
        constructor
        · rintro rfl
          refine ⟨by omega, h1, ?_⟩
          intro K hK
          by_contra hlt
          have hK0 : K = 0 := by omega
          subst hK0
          exact h0 hK
        · rintro ⟨_, hle, hmin⟩
          have h1' := hmin 1 h1
          have : ¬L = 0 := by
            rintro rfl
            exact h0 hle
          omega
      next h1 =>
        split
        next h2 =>
          simp only [Option.some.injEq]
          constructor
          · rintro rfl
            refine ⟨by omega, h2, ?_⟩
            intro K hK
            by_contra hlt
            interval_cases K
            · exact h0 hK
            · exact h1 hK
          · rintro ⟨_, hle, hmin⟩
            have h2' := hmin 2 h2
            have hL0 : ¬L = 0 := by
              rintro rfl
              exact h0 hle
            have hL1 : ¬L = 1 := by
              rintro rfl
              exact h1 hle
            omega
        next h2 =>
          split
          next h3 =>
            simp only [Option.some.injEq]
            constructor
            · rintro rfl
              refine ⟨by omega, h3, ?_⟩
              intro K hK
              by_contra hlt
              interval_cases K
              · exact h0 hK
              · exact h1 hK
              · exact h2 hK
            · rintro ⟨_, hle, hmin⟩
              have h3' := hmin 3 h3
              have hL0 : ¬L = 0 := by
                rintro rfl
                exact h0 hle
              have hL1 : ¬L = 1 := by
                rintro rfl
                exact h1 hle
              have hL2 : ¬L = 2 := by
                rintro rfl
                exact h2 hle
              omega
          next h3 =>
            simp only [reduceCtorEq, false_iff, not_and]
            intro hL3 hle
            exact absurd (le_trans hle (mono hL3)) h3
  · intro L hL
    interval_cases L <;> decide
  · intro L hL
    interval_cases L <;> decide
  · intro n hn
    have h0 : MAX_SIZE 0 ≤ MAX_SIZE 3 := mono (by omega)
    have h1 : MAX_SIZE 1 ≤ MAX_SIZE 3 := mono (by omega)
    have h2 : MAX_SIZE 2 ≤ MAX_SIZE 3 := mono (by omega)
    unfold whichLv
    rw [if_neg (by omega), if_neg (by omega), if_neg (by omega), if_neg (by omega)]

/-- Witness for c4_whichLv_smallest: a 3841-byte file (one byte past
MAX_SIZE[0]) is placed at level 1. -/
theorem c4_witness : whichLv 3841 = some 1 :=
  c4_whichLv_smallest.2.2.1 0 (by norm_num)

/-! ## Chunk and fold lemmas -/

theorem NUM_DIRECT_eq : NUM_DIRECT = 30 := by
  norm_num [NUM_DIRECT, SectorSize]

theorem MAX_SIZE_pos (k : Nat) : 0 < MAX_SIZE k := by
  simp only [MAX_SIZE, NUM_DIRECT_eq, SectorSize]
  positivity

theorem whichLv_succ_gt {n l : Nat} (h : whichLv n = some (l + 1)) : MAX_SIZE l < n := by
  by_cases h0 : n ≤ MAX_SIZE 0
  · simp [whichLv, h0] at h
  · by_cases h1 : n ≤ MAX_SIZE 1
    · have hl : l = 0 := by
        simp [whichLv, h0, h1] at h
        omega
      subst hl
      omega
    · by_cases h2 : n ≤ MAX_SIZE 2
      · have hl : l = 1 := by
          simp [whichLv, h0, h1, h2] at h
          omega
        subst hl
        omega
      · by_cases h3 : n ≤ MAX_SIZE 3
        · have hl : l = 2 := by
            simp [whichLv, h0, h1, h2, h3] at h
            omega
          subst hl
          omega
        · simp [whichLv, h0, h1, h2, h3] at h

theorem chunkSizes_zero (mc : Nat) : chunkSizes mc 0 = [] := by
  simp [chunkSizes]

theorem chunkSizes_step {mc n : Nat} (hmc : 0 < mc) (hn : 0 < n) :
    chunkSizes mc n = min n mc :: chunkSizes mc (n - min n mc) := by
  rcases Nat.lt_or_ge n mc with hlt | hge
  · have hdiv : n / mc = 0 := Nat.div_eq_of_lt hlt
    have hmod : n % mc = n := Nat.mod_eq_of_lt hlt
    have hmin : min n mc = n := by omega
    simp [chunkSizes, hdiv, hmod, hmin, Nat.sub_self, hn.ne']
  · have hmin : min n mc = mc := by omega
    have hdiv : n / mc = (n - mc) / mc + 1 := Nat.div_eq_sub_div hmc hge
    rw [hmin]
    unfold chunkSizes
    rw [hdiv, ← Nat.mod_eq_sub_mod hge, List.replicate_succ]
    simp

theorem chunkSizes_mem {mc n c : Nat} (hmc : 0 < mc) (h : c ∈ chunkSizes mc n) :
    0 < c ∧ c ≤ mc := by
  unfold chunkSizes at h
  rw [List.mem_append] at h
  rcases h with h | h
  · have := List.eq_of_mem_replicate h
    omega
  · split at h
    · simp at h
    · next hne =>
      simp only [List.mem_singleton] at h
      subst h
      exact ⟨by omega, le_of_lt (Nat.mod_lt _ hmc)⟩

theorem sum_chunks (k n : Nat) (hk : 0 < k) :
    ((chunkSizes (k * SectorSize) n).map (fun c => divRoundUp c SectorSize)).sum
      = divRoundUp n SectorSize := by
  have hSS : 0 < SectorSize := by norm_num [SectorSize]
  have hmcpos : 0 < k * SectorSize := by positivity
  have hqr : k * SectorSize * (n / (k * SectorSize)) + n % (k * SectorSize) = n :=
    Nat.div_add_mod n (k * SectorSize)
  have hrlt : n % (k * SectorSize) < k * SectorSize := Nat.mod_lt _ hmcpos
  have hdm : divRoundUp (k * SectorSize) SectorSize = k := by
    unfold divRoundUp
    have h1 : k * SectorSize + SectorSize - 1 = (SectorSize - 1) + k * SectorSize := by
      omega
    rw [h1, Nat.add_mul_div_right _ _ hSS, Nat.div_eq_of_lt (by omega)]
    omega
  have hlink : k * (n / (k * SectorSize)) * SectorSize
      = k * SectorSize * (n / (k * SectorSize)) := by ring
  have hdn : divRoundUp n SectorSize
      = k * (n / (k * SectorSize)) + divRoundUp (n % (k * SectorSize)) SectorSize := by
    unfold divRoundUp
    have h1 : n + SectorSize - 1
        = (n % (k * SectorSize) + SectorSize - 1)
          + k * (n / (k * SectorSize)) * SectorSize := by
      omega
    rw [h1, Nat.add_mul_div_right _ _ hSS]
    omega
  unfold chunkSizes
  rw [List.map_append, List.sum_append, List.map_replicate, List.sum_replicate, smul_eq_mul,
    hdm, hdn]
  by_cases hr : n % (k * SectorSize) = 0
  · have h0 : divRoundUp (n % (k * SectorSize)) SectorSize = 0 := by
      unfold divRoundUp
      rw [hr]
      exact Nat.div_eq_of_lt (by omega)
    rw [if_pos hr, h0]
    simp only [List.map_nil, List.sum_nil]
    ring
  · rw [if_neg hr]
    simp only [List.map_cons, List.map_nil, List.sum_cons, List.sum_nil]
    ring

theorem foldSkip_nil (acc : List Int) : foldSkip acc [] = acc := rfl

theorem foldSkip_cons (acc m : List Int) (rest : List (List Int)) :
    foldSkip acc (m :: rest) = foldSkip (if m = acc then acc else acc ++ m) rest := rfl

theorem foldSkip_length_le (ms : List (List Int)) :
    ∀ acc, (foldSkip acc ms).length ≤ acc.length + (ms.map List.length).sum := by
  induction ms with
  | nil => intro acc; simp [foldSkip_nil]
  | cons m rest ih =>
    intro acc
    rw [foldSkip_cons]
    by_cases hme : m = acc
    · rw [if_pos hme]
      have := ih acc
      simp only [List.map_cons, List.sum_cons]
      omega
    · rw [if_neg hme]
      have := ih (acc ++ m)
      simp only [List.length_append] at this
      simp only [List.map_cons, List.sum_cons]
      omega

theorem foldSkip_eq_of_length (ms : List (List Int)) :
    ∀ acc, (foldSkip acc ms).length = acc.length + (ms.map List.length).sum →
      foldSkip acc ms = acc ++ ms.flatten := by
  induction ms with
  | nil => intro acc _; simp [foldSkip_nil]
  | cons m rest ih =>
    intro acc hlen
    rw [foldSkip_cons] at hlen ⊢
    by_cases hme : m = acc
    · rw [if_pos hme] at hlen ⊢
      have hle := foldSkip_length_le rest acc
      simp only [List.map_cons, List.sum_cons] at hlen
      have hm : m = [] := List.length_eq_zero.mp (by omega)
      have hacc : acc = [] := by rw [← hme, hm]
      subst hacc
      rw [hm] at hlen ⊢
      have := ih [] (by simpa using hlen)
      simpa using this
    · rw [if_neg hme] at hlen ⊢
      have := ih (acc ++ m)
        (by
          simp only [List.map_cons, List.sum_cons] at hlen
          simp only [List.length_append]
          omega)
      rw [this]
      simp

theorem foldSkip_eq_of_nodup (ms : List (List Int)) :
    ∀ acc, (acc ++ ms.flatten).Nodup → foldSkip acc ms = acc ++ ms.flatten := by
  induction ms with
  | nil => intro acc _; simp [foldSkip_nil]
  | cons m rest ih =>
    intro acc hnd
    rw [foldSkip_cons]
    by_cases hme : m = acc
    · rw [if_pos hme]
      have hm : m = [] := by
        by_contra hne
        obtain ⟨x, hx⟩ := List.exists_mem_of_ne_nil m hne
        have hxacc : x ∈ acc := hme ▸ hx
        rw [List.flatten_cons, ← List.append_assoc, List.nodup_append] at hnd
        exact (List.nodup_append.mp hnd.1).2.2 hxacc hx
      have hacc : acc = [] := by rw [← hme, hm]
      subst hacc
      rw [hm] at hnd ⊢
      have := ih [] (by simpa using hnd)
      simpa using this
    · rw [if_neg hme]
      have := ih (acc ++ m)
        (by
          rw [List.flatten_cons, ← List.append_assoc] at hnd
          exact hnd)
      rw [this]
      simp

/-! ## Allocation postconditions -/

theorem joinLeaves_eq_flatten (f : FileHeader → List Int) :
    ∀ l : List FileHeader, joinLeaves f l = (l.map f).flatten := by
  intro l
  induction l with
  | nil => simp [joinLeaves]
  | cons c rest ih => simp [joinLeaves, ih]

theorem allocDirect_length :
    ∀ (k : Nat) (fm : List Bool) (acc secs : List Int) (fm' : List Bool),
      allocDirect fm k acc = some (secs, fm') → secs.length = acc.length + k := by
  intro k
  induction k with
  | zero =>
    intro fm acc secs fm' h
    simp only [allocDirect] at h
    cases h
    simp
  | succ k ih =>
    intro fm acc secs fm' h
    simp only [allocDirect] at h
    split at h
    · exact absurd h (by simp)
    · have := ih _ _ _ _ h
      simp only [List.length_append, List.length_cons, List.length_nil] at this
      omega

theorem alloc_fields {fuel : Nat} {fm : List Bool} {n : Nat} {ok : Bool} {fh : FileHeader}
    {fm' : List Bool} (h : fhAllocate fuel fm n = .ret ok fh fm') :
    fh.numBytes = n ∧ fh.numDataSectors = divRoundUp n SectorSize := by
  cases fuel with
  | zero => exact absurd h (by simp [fhAllocate])
  | succ fuel =>
    simp only [fhAllocate] at h
    split at h
    · cases h
      exact ⟨rfl, rfl⟩
    · split at h
      · exact absurd h (by simp)
      · split at h
        · exact absurd h (by simp)
        · cases h
          exact ⟨rfl, rfl⟩
      · split at h
        · exact absurd h (by simp)
        · cases h
          exact ⟨rfl, rfl⟩

theorem allocLoop_spec (alloc : List Bool → Nat → AllocOut) (mc : Nat) (hmc : 0 < mc)
    (hpost : ∀ a b ok c d, alloc a b = .ret ok c d → c.numBytes = b) :
    ∀ (lfuel : Nat) (fm : List Bool) (rem : Nat) (secsA : List Int)
      (chsA : List FileHeader) (mapA s' : List Int) (c' : List FileHeader)
      (m' : List Int) (f' : List Bool),
      allocLoop alloc mc lfuel fm rem secsA chsA mapA = some (s', c', m', f') →
      ∃ ts, c' = chsA ++ ts ∧
        m' = foldSkip mapA (ts.map FileHeader.mapping) ∧
        (∀ t ∈ ts, ∃ a ok d, alloc a t.numBytes = .ret ok t d) ∧
        ts.map FileHeader.numBytes = chunkSizes mc rem := by
  intro lfuel
  induction lfuel with
  | zero =>
    intro fm rem secsA chsA mapA s' c' m' f' h
    simp only [allocLoop] at h
    split at h
    · next hrem =>
      cases h
      exact ⟨[], by simp, by simp [foldSkip_nil], by simp, by simp [hrem, chunkSizes_zero]⟩
    · exact absurd h (by simp)
  | succ lfuel ih =>
    intro fm rem secsA chsA mapA s' c' m' f' h
    simp only [allocLoop] at h
    split at h
    · next hrem =>
      cases h
      exact ⟨[], by simp, by simp [foldSkip_nil], by simp, by simp [hrem, chunkSizes_zero]⟩
    · next hrem =>
      split at h
      · exact absurd h (by simp)
      · split at h
        · exact absurd h (by simp)
        · next ok child fm2 halloc =>
          obtain ⟨ts', hc, hm, hmem, hnum⟩ := ih _ _ _ _ _ _ _ _ _ h
          refine ⟨child :: ts', ?_, ?_, ?_, ?_⟩
          · rw [hc]
            simp
          · rw [hm, List.map_cons, foldSkip_cons]
          · intro t ht
            rcases List.mem_cons.mp ht with rfl | ht'
            · refine ⟨(findAndSet fm).2, ok, fm2, ?_⟩
              rw [hpost _ _ _ _ _ halloc]
              exact halloc
            · exact hmem t ht'
          · rw [List.map_cons, hnum, hpost _ _ _ _ _ halloc]
            exact (chunkSizes_step hmc (by omega)).symm

theorem sum_forcing {α : Type} :
    ∀ (ts : List α) (f g : α → Nat),
      (∀ t ∈ ts, f t ≤ g t) → (ts.map g).sum ≤ (ts.map f).sum → ∀ t ∈ ts, f t = g t := by
  intro ts
  induction ts with
  | nil =>
    intro f g _ _ t ht
    simp at ht
  | cons a rest ih =>
    intro f g hle hsum t ht
    have hhead := hle a (by simp)
    have hrestle : ∀ t ∈ rest, f t ≤ g t := fun t ht => hle t (by simp [ht])
    have hsums : (rest.map f).sum ≤ (rest.map g).sum := List.sum_le_sum hrestle
    simp only [List.map_cons, List.sum_cons] at hsum
    rcases List.mem_cons.mp ht with rfl | ht'
    · omega
    · exact ih f g hrestle (by omega) t ht'

/-- The total data-sector demand of the chunks of `n` equals the parent's
numDataSectors (MAX_SIZE values are multiples of SectorSize). -/
theorem chunk_demand (lv n : Nat) :
    ((chunkSizes (MAX_SIZE lv) n).map (fun c => divRoundUp c SectorSize)).sum
      = divRoundUp n SectorSize := by
  have : MAX_SIZE lv = NUM_DIRECT ^ (lv + 1) * SectorSize := rfl
  rw [this]
  exact sum_chunks _ n (by rw [NUM_DIRECT_eq]; positivity)

theorem alloc_len_le :
    ∀ (fuel : Nat) (fm : List Bool) (n : Nat) (ok : Bool) (fh : FileHeader) (fm' : List Bool),
      fhAllocate fuel fm n = .ret ok fh fm' → fh.mapping.length ≤ fh.numDataSectors := by
  intro fuel
  induction fuel with
  | zero =>
    intro fm n ok fh fm' h
    exact absurd h (by simp [fhAllocate])
  | succ fuel ih =>
    intro fm n ok fh fm' h
    simp only [fhAllocate] at h
    split at h
    · cases h
      simp [FileHeader.mapping, FileHeader.numDataSectors]
    · split at h
      · exact absurd h (by simp)
      · split at h
        · exact absurd h (by simp)
        · next secs fmx hdir =>
          cases h
          have := allocDirect_length _ _ _ _ _ hdir
          simp only [List.length_nil] at this
          simp [FileHeader.mapping, FileHeader.numDataSectors]
          omega
      · next lv hw =>
        split at h
        · exact absurd h (by simp)
        · next secs chs mapping fmx hloop =>
          cases h
          have hmc : 0 < MAX_SIZE lv := MAX_SIZE_pos lv
          have hpost : ∀ a b ok c d, fhAllocate fuel a b = .ret ok c d → c.numBytes = b :=
            fun a b ok c d hh => (alloc_fields hh).1
          obtain ⟨ts, hc, hm, hmem, hnum⟩ :=
            allocLoop_spec _ _ hmc hpost _ _ _ _ _ _ _ _ _ _ hloop
          simp only [List.nil_append] at hc
          subst hc
          simp only [FileHeader.mapping, FileHeader.numDataSectors]
          have h1 : mapping.length ≤ ((chs.map FileHeader.mapping).map List.length).sum := by
            rw [hm]
            have := foldSkip_length_le (chs.map FileHeader.mapping) []
            simpa using this
          have h2 : ((chs.map FileHeader.mapping).map List.length).sum
              = (chs.map (fun t => t.mapping.length)).sum := by
            rw [List.map_map]
            rfl
          have h3 : (chs.map (fun t => t.mapping.length)).sum
              ≤ (chs.map (fun t => t.numDataSectors)).sum := by
            refine List.sum_le_sum ?_
            intro t ht
            obtain ⟨a, ok', d, hall⟩ := hmem t ht
            exact ih _ _ _ _ _ hall
          have h4 : (chs.map (fun t => t.numDataSectors)).sum
              = (chs.map (fun t => divRoundUp t.numBytes SectorSize)).sum := by
            rw [List.map_congr_left (fun t ht => (alloc_fields (hmem t ht).choose_spec.choose_spec.choose_spec).2)]
          have h5 : (chs.map (fun t => divRoundUp t.numBytes SectorSize)).sum
              = divRoundUp n SectorSize := by
            have hmm : chs.map (fun t => divRoundUp t.numBytes SectorSize)
                = (chs.map FileHeader.numBytes).map (fun c => divRoundUp c SectorSize) := by
              rw [List.map_map]
              rfl
            rw [hmm, hnum]
            exact chunk_demand lv n
          omega

theorem alloc_mapping_leaves :
    ∀ (fuel : Nat) (fm : List Bool) (n : Nat) (ok : Bool) (fh : FileHeader) (fm' : List Bool),
      fhAllocate fuel fm n = .ret ok fh fm' →
      (treeLeavesF fuel fh).Nodup →
      fh.mapping.length = fh.numDataSectors →
      fh.mapping = treeLeavesF fuel fh := by
  intro fuel
  induction fuel with
  | zero =>
    intro fm n ok fh fm' h
    exact absurd h (by simp [fhAllocate])
  | succ fuel ih =>
    intro fm n ok fh fm' h hnd hlen
    simp only [fhAllocate] at h
    split at h
    · cases h
      simp only [FileHeader.mapping, FileHeader.numDataSectors, List.length_nil] at hlen
      simp only [FileHeader.mapping]
      unfold treeLeavesF
      simp only [FileHeader.numBytes, FileHeader.dataSectors, FileHeader.children,
        FileHeader.numDataSectors]
      split
      · rfl
      · rw [← hlen]
        simp
      · simp [joinLeaves]
    · split at h
      · exact absurd h (by simp)
      · next hw =>
        split at h
        · exact absurd h (by simp)
        · next secs fmx hdir =>
          cases h
          have hsl : secs.length = divRoundUp n SectorSize := by
            have := allocDirect_length _ _ _ _ _ hdir
            simpa using this
          simp only [FileHeader.mapping]
          unfold treeLeavesF
          simp only [FileHeader.numBytes, FileHeader.dataSectors, FileHeader.numDataSectors, hw]
          unfold padSlots
          rw [← hsl, List.take_left]
      · next lv hw =>
        split at h
        · exact absurd h (by simp)
        · next secs chs mapping fmx hloop =>
          cases h
          have hmc : 0 < MAX_SIZE lv := MAX_SIZE_pos lv
          have hpost : ∀ a b ok c d, fhAllocate fuel a b = .ret ok c d → c.numBytes = b :=
            fun a b ok c d hh => (alloc_fields hh).1
          obtain ⟨ts, hc, hm, hmem, hnum⟩ :=
            allocLoop_spec _ _ hmc hpost _ _ _ _ _ _ _ _ _ _ hloop
          simp only [List.nil_append] at hc
          subst hc
          simp only [FileHeader.mapping, FileHeader.numDataSectors] at hlen
          simp only [FileHeader.mapping]
          have hleaves : treeLeavesF (fuel + 1)
                (.mk n (divRoundUp n SectorSize) (padSlots secs) chs mapping)
              = (chs.map (treeLeavesF fuel)).flatten := by
            unfold treeLeavesF
            simp only [FileHeader.numBytes, FileHeader.children, hw]
            exact joinLeaves_eq_flatten _ _
          rw [hleaves] at hnd ⊢
          have h2 : ((chs.map FileHeader.mapping).map List.length).sum
              = (chs.map (fun t => t.mapping.length)).sum := by
            rw [List.map_map]
            rfl
          have h1 : mapping.length ≤ (chs.map (fun t => t.mapping.length)).sum := by
            rw [hm, ← h2]
            have := foldSkip_length_le (chs.map FileHeader.mapping) []
            simpa using this
          have h3 : (chs.map (fun t => t.mapping.length)).sum
              ≤ (chs.map (fun t => t.numDataSectors)).sum := by
            refine List.sum_le_sum ?_
            intro t ht
            obtain ⟨a, ok', d, hall⟩ := hmem t ht
            exact alloc_len_le _ _ _ _ _ _ hall
          have h4 : (chs.map (fun t => t.numDataSectors)).sum
              = (chs.map (fun t => divRoundUp t.numBytes SectorSize)).sum := by
            rw [List.map_congr_left
              (fun t ht => (alloc_fields (hmem t ht).choose_spec.choose_spec.choose_spec).2)]
          have h5 : (chs.map (fun t => divRoundUp t.numBytes SectorSize)).sum
              = divRoundUp n SectorSize := by
            have hmm : chs.map (fun t => divRoundUp t.numBytes SectorSize)
                = (chs.map FileHeader.numBytes).map (fun c => divRoundUp c SectorSize) := by
              rw [List.map_map]
              rfl
            rw [hmm, hnum]
            exact chunk_demand lv n
          have hforce : ∀ t ∈ chs, t.mapping.length = t.numDataSectors := by
            refine sum_forcing chs (fun t => t.mapping.length) (fun t => t.numDataSectors) ?_ ?_
            · intro t ht
              obtain ⟨a, ok', d, hall⟩ := hmem t ht
              exact alloc_len_le _ _ _ _ _ _ hall
            · omega
          have hndc : ∀ t ∈ chs, (treeLeavesF fuel t).Nodup := by
            intro t ht
            exact (List.nodup_flatten.mp hnd).1 _ (List.mem_map_of_mem _ ht)
          have heach : ∀ t ∈ chs, t.mapping = treeLeavesF fuel t := by
            intro t ht
            obtain ⟨a, ok', d, hall⟩ := hmem t ht
            exact ih _ _ _ _ _ hall (hndc t ht) (hforce t ht)
          have hmapeq : chs.map FileHeader.mapping = chs.map (treeLeavesF fuel) :=
            List.map_congr_left heach
          have hlensum : (foldSkip [] (chs.map FileHeader.mapping)).length
              = ([] : List Int).length + ((chs.map FileHeader.mapping).map List.length).sum := by
            rw [← hm]
            simp only [List.length_nil, Nat.zero_add]
            omega
          have hfull : mapping = (chs.map FileHeader.mapping).flatten := by
            rw [hm]
            have := foldSkip_eq_of_length (chs.map FileHeader.mapping) [] hlensum
            simpa using this
          rw [hfull, hmapeq]

theorem fetchChildren_spec (fetch : Nat → Option FileHeader) :
    ∀ (slots : List Int) (chsA : List FileHeader) (mapA : List Int)
      (c' : List FileHeader) (m' : List Int),
      fetchChildren fetch slots chsA mapA = some (c', m') →
      ∃ ts, c' = chsA ++ ts ∧ m' = foldSkip mapA (ts.map FileHeader.mapping) ∧
        ∀ t ∈ ts, ∃ s0, fetch s0 = some t := by
  intro slots
  induction slots with
  | nil =>
    intro chsA mapA c' m' h
    simp only [fetchChildren] at h
    cases h
    exact ⟨[], by simp, by simp [foldSkip_nil], by simp⟩
  | cons s rest ih =>
    intro chsA mapA c' m' h
    simp only [fetchChildren] at h
    split at h
    · exact absurd h (by simp)
    · split at h
      · exact absurd h (by simp)
      · next child hfetch =>
        obtain ⟨ts', hc, hm, hmem⟩ := ih _ _ _ _ h
        refine ⟨child :: ts', ?_, ?_, ?_⟩
        · rw [hc]
          simp
        · rw [hm, List.map_cons, foldSkip_cons]
        · intro t ht
          rcases List.mem_cons.mp ht with rfl | ht'
          · exact ⟨s.toNat, hfetch⟩
          · exact hmem t ht'

theorem fetch_mapping_leaves :
    ∀ (fuel : Nat) (hdrs : Nat → HdrRec) (s : Nat) (fh : FileHeader),
      fhFetch hdrs fuel s = some fh → (treeLeavesF fuel fh).Nodup →
      fh.mapping = treeLeavesF fuel fh := by
  intro fuel
  induction fuel with
  | zero =>
    intro hdrs s fh h
    exact absurd h (by simp [fhFetch])
  | succ fuel ih =>
    intro hdrs s fh h hnd
    simp only [fhFetch] at h
    split at h
    · exact absurd h (by simp)
    · next hw =>
      cases h
      simp only [FileHeader.mapping]
      unfold treeLeavesF
      simp only [FileHeader.numBytes, FileHeader.dataSectors, FileHeader.numDataSectors, hw]
    · next lv hw =>
      split at h
      · exact absurd h (by simp)
      · next chs mapping hkids =>
        cases h
        obtain ⟨ts, hc, hm, hmem⟩ := fetchChildren_spec _ _ _ _ _ _ hkids
        simp only [List.nil_append] at hc
        subst hc
        simp only [FileHeader.mapping]
        have hleaves : treeLeavesF (fuel + 1)
              (.mk (hdrs s).numBytes (hdrs s).numDataSectors (hdrs s).dataSectors chs mapping)
            = (chs.map (treeLeavesF fuel)).flatten := by
          unfold treeLeavesF
          simp only [FileHeader.numBytes, FileHeader.children, hw]
          exact joinLeaves_eq_flatten _ _
        rw [hleaves] at hnd ⊢
        have hndc : ∀ t ∈ chs, (treeLeavesF fuel t).Nodup := by
          intro t ht
          exact (List.nodup_flatten.mp hnd).1 _ (List.mem_map_of_mem _ ht)
        have heach : ∀ t ∈ chs, t.mapping = treeLeavesF fuel t := by
          intro t ht
          obtain ⟨s0, hf⟩ := hmem t ht
          exact ih _ _ _ hf (hndc t ht)
        have hmapeq : chs.map FileHeader.mapping = chs.map (treeLeavesF fuel) :=
          List.map_congr_left heach
        rw [hm, hmapeq]
        refine foldSkip_eq_of_nodup _ _ ?_ |>.trans (by simp)
        simpa using hnd

theorem alloc_children_chunks :
    ∀ (fuel : Nat) (n L : Nat) (fm : List Bool) (fh : FileHeader) (fm' : List Bool),
      whichLv n = some (L + 1) →
      fhAllocate fuel fm n = .ret true fh fm' →
      fh.children.map FileHeader.numBytes = chunkSizes (MAX_SIZE L) n := by
  intro fuel n L fm fh fm' hw h
  cases fuel with
  | zero => exact absurd h (by simp [fhAllocate])
  | succ fuel =>
    simp only [fhAllocate] at h
    split at h
    · cases h
    · simp only [hw] at h
      split at h
      · exact absurd h (by simp)
      · next secs chs mapping fmx hloop =>
        cases h
        have hmc : 0 < MAX_SIZE L := MAX_SIZE_pos L
        have hpost : ∀ a b ok c d, fhAllocate fuel a b = .ret ok c d → c.numBytes = b :=
          fun a b ok c d hh => (alloc_fields hh).1
        obtain ⟨ts, hc, _, _, hnum⟩ :=
          allocLoop_spec _ _ hmc hpost _ _ _ _ _ _ _ _ _ _ hloop
        simp only [List.nil_append] at hc
        subst hc
        simpa [FileHeader.children] using hnum

/-- C5 amended: byte_to_sector returns mapping[offset / SectorSize]
whenever the rebuilt mapping covers numDataSectors entries; and the
rebuilt mapping is exactly the left-to-right depth-first leaf vector of
the inode tree provided the tree's leaf sectors are pairwise distinct
(for fetch_from) and, additionally, the mapping length matches
numDataSectors (for allocate, whose source ignores failed child
allocations); the counterexamples show both provisos are necessary. -/
theorem c5_mapping_byteToSector :
    (∀ (fuel : Nat) (hdrs : Nat → HdrRec) (s : Nat) (fh : FileHeader),
        fhFetch hdrs fuel s = some fh → (treeLeavesF fuel fh).Nodup →
        fh.mapping = treeLeavesF fuel fh) ∧
    (∀ (fuel : Nat) (fm : List Bool) (n : Nat) (fh : FileHeader) (fm' : List Bool),
        fhAllocate fuel fm n = .ret true fh fm' →
        (treeLeavesF fuel fh).Nodup → fh.mapping.length = fh.numDataSectors →
        fh.mapping = treeLeavesF fuel fh) ∧
    (∀ (fh : FileHeader) (offset : Nat),
        fh.mapping.length = fh.numDataSectors →
        offset / SectorSize < fh.numDataSectors →
        byteToSector fh offset = fh.mapping[offset / SectorSize]? ∧
        ∃ v, fh.mapping[offset / SectorSize]? = some v) := by
  refine ⟨fetch_mapping_leaves, ?_, ?_⟩
  · intro fuel fm n fh fm' h hnd hlen
    exact alloc_mapping_leaves fuel fm n true fh fm' h hnd hlen
  · intro fh offset hlen hoff
    unfold byteToSector
    rw [if_pos hlen]
    refine ⟨rfl, ?_⟩
    have hidx : offset / SectorSize < fh.mapping.length := by omega
    exact ⟨_, List.getElem?_eq_getElem hidx⟩

/-- Witness for c5_mapping_byteToSector: the single-file disk `hdrGood`
fetches to an inode whose mapping is its leaf vector [7]. -/
theorem c5_witness : fhGood.mapping = treeLeavesF LEVEL_LIMIT fhGood :=
  c5_mapping_byteToSector.1 LEVEL_LIMIT hdrGood 5 fhGood rfl (by decide)

/-- C6: an allocation at level L + 1 splits the size into left-to-right
chunks of at most MAX_SIZE[L] bytes (the rightmost possibly partial), one
child inode per non-empty chunk; concretely, create /big 4000 yields a
level-1 inode (numBytes 4000) with exactly the two children at sectors 14
and 45, the first covering 3840 bytes and the second a level-0 inode with
numBytes 160 and numDataSectors 2. -/
theorem c6_chunk_split :
    (∀ (n L : Nat) (fm : List Bool) (fh : FileHeader) (fm' : List Bool),
        whichLv n = some (L + 1) →
        fhAllocate LEVEL_LIMIT fm n = .ret true fh fm' →
        fh.children.map FileHeader.numBytes = chunkSizes (MAX_SIZE L) n ∧
        (∀ c ∈ chunkSizes (MAX_SIZE L) n, 0 < c ∧ c ≤ MAX_SIZE L)) ∧
    ((st_big.hdrs 13).numBytes = 4000 ∧
     whichLv 4000 = some 1 ∧
     usedSlots (st_big.hdrs 13).dataSectors = [14, 45] ∧
     (st_big.hdrs 14).numBytes = 3840 ∧
     (st_big.hdrs 45).numBytes = 160 ∧
     (st_big.hdrs 45).numDataSectors = 2 ∧
     whichLv (st_big.hdrs 45).numBytes = some 0) := by
  constructor
  · intro n L fm fh fm' hw h
    refine ⟨alloc_children_chunks LEVEL_LIMIT n L fm fh fm' hw h, ?_⟩
    intro c hc
    exact chunkSizes_mem (MAX_SIZE_pos L) hc
  · exact ⟨rfl, rfl, rfl, rfl, rfl, rfl, rfl⟩

/-- Witness for c6_chunk_split: Allocate(fm40, 4000) splits into the
chunks [3840, 160]. -/
theorem c6_witness :
    fhBig40.children.map FileHeader.numBytes = chunkSizes (MAX_SIZE 0) 4000 :=
  (c6_chunk_split.1 4000 0 fm40 fhBig40 fmBig40 (by decide) rfl).1

/-! ## Write-order traces (C7) -/

theorem wbChildren_trace (wb : FileHeader → Int → (Nat → HdrRec) → Option ((Nat → HdrRec) × List WEvent))
    (hwb : ∀ c s h hout tout, wb c s h = some (hout, tout) →
      ∀ e ∈ tout, ∃ x, e = WEvent.inode x) :
    ∀ (slots : List Int) (cs : List FileHeader) (hdrs hout : Nat → HdrRec)
      (tout : List WEvent),
      wbChildren wb slots cs hdrs = some (hout, tout) →
      ∀ e ∈ tout, ∃ x, e = WEvent.inode x := by
  intro slots
  induction slots with
  | nil =>
    intro cs hdrs hout tout h e he
    simp only [wbChildren] at h
    cases h
    simp at he
  | cons s rest ih =>
    intro cs hdrs hout tout h e he
    cases cs with
    | nil => simp [wbChildren] at h
    | cons c cs =>
      simp only [wbChildren] at h
      split at h
      · exact absurd h (by simp)
      · next h1 tr1 hwb1 =>
        split at h
        · exact absurd h (by simp)
        · next h2 tr2 hrest =>
          cases h
          rcases List.mem_append.mp he with he1 | he2
          · exact hwb _ _ _ _ _ hwb1 e he1
          · exact ih _ _ _ _ hrest e he2

theorem fhWriteBack_trace :
    ∀ (fuel : Nat) (fh : FileHeader) (sector : Int) (hdrs hout : Nat → HdrRec)
      (tr : List WEvent),
      fhWriteBack fuel fh sector hdrs = some (hout, tr) →
      ∀ e ∈ tr, ∃ x, e = WEvent.inode x := by
  intro fuel
  induction fuel with
  | zero =>
    intro fh sector hdrs hout tr h
    exact absurd h (by simp [fhWriteBack])
  | succ fuel ih =>
    intro fh sector hdrs hout tr h e he
    simp only [fhWriteBack] at h
    split at h
    · exact absurd h (by simp)
    · split at h
      · exact absurd h (by simp)
      · cases h
        simp only [List.mem_singleton] at he
        exact ⟨sector, he⟩
      · split at h
        · exact absurd h (by simp)
        · next h2 tr2 hkids =>
          cases h
          rcases List.mem_cons.mp he with rfl | he2
          · exact ⟨sector, rfl⟩
          · exact wbChildren_trace _ (fun c s h' ho t0 hw => ih c s h' ho t0 hw) _ _ _ _ _
              hkids e he2


/-- C7 amended: per-operation disk-write orders as the code performs them.
A successful file create writes inodes, then the parent directory, then
the bitmap (bitmap last); a successful mkdir additionally writes the new
directory's table after the bitmap; a successful single-file remove
writes the bitmap before the parent directory; a successful recursive
remove of a directory writes that directory's table and then the bitmap,
and its file fallback writes bitmap then parent. The bitmap is therefore
not always the last structure written. -/
theorem c7_write_order :
    (∀ (st : FSState) (name : List Char) (sz : Int) (st' : FSState) (tr : List WEvent),
        createFileOrDir st name false sz = .ret true st' tr →
        ∃ ti p, tr = ti ++ [.dirContent p, .bitmap] ∧
          ∀ e ∈ ti, ∃ x, e = WEvent.inode x) ∧
    (∀ (st : FSState) (name : List Char) (sz : Int) (st' : FSState) (tr : List WEvent),
        createFileOrDir st name true sz = .ret true st' tr →
        ∃ ti p q, tr = ti ++ [.dirContent p, .bitmap, .dirContent q] ∧
          ∀ e ∈ ti, ∃ x, e = WEvent.inode x) ∧
    (∀ (st : FSState) (name : List Char) (st' : FSState) (tr : List WEvent),
        removeSingle st name = .ret true st' tr →
        ∃ p, tr = [.bitmap, .dirContent p]) ∧
    (∀ (st : FSState) (name : List Char) (st' : FSState) (tr : List WEvent),
        recursivelyRemove st name = .ret true st' tr →
        (∃ d, tr = [.dirContent d, .bitmap]) ∨ (∃ p, tr = [.bitmap, .dirContent p])) := by
  have hremove : ∀ (st : FSState) (name : List Char) (st' : FSState) (tr : List WEvent),
      removeSingle st name = .ret true st' tr → ∃ p, tr = [.bitmap, .dirContent p] := by
    intro st name st' tr h
    simp only [removeSingle] at h
    repeat' split at h
    any_goals simp only [BoolOut.ret.injEq, reduceCtorEq, Bool.false_eq_true, false_and,
      true_and] at h
    obtain ⟨hst, htr⟩ := h
    subst htr
    exact ⟨_, rfl⟩
  have hcreate : ∀ (isDir : Bool) (st : FSState) (name : List Char) (sz : Int)
      (st' : FSState) (tr : List WEvent),
      createFileOrDir st name isDir sz = .ret true st' tr →
      ∃ ti p, (if isDir then ∃ q, tr = ti ++ [.dirContent p, .bitmap, .dirContent q]
               else tr = ti ++ [.dirContent p, .bitmap]) ∧
        ∀ e ∈ ti, ∃ x, e = WEvent.inode x := by
    intro isDir st name sz st' tr h
    simp only [createFileOrDir] at h
    repeat' split at h
    any_goals simp only [BoolOut.ret.injEq, reduceCtorEq, Bool.false_eq_true, false_and,
      true_and] at h
    · rename_i hwb
      obtain ⟨hst, htr⟩ := h
      subst htr
      simp only [‹isDir = true›, eq_self_iff_true, if_true]
      exact ⟨_, _, ⟨_, List.append_assoc _ _ _⟩,
        fun e he => fhWriteBack_trace _ _ _ _ _ _ hwb e he⟩
    · rename_i hwb
      obtain ⟨hst, htr⟩ := h
      subst htr
      have hid : isDir = false := by
        simpa using ‹¬isDir = true›
      simp only [hid, Bool.false_eq_true, if_false]
      exact ⟨_, _, rfl, fun e he => fhWriteBack_trace _ _ _ _ _ _ hwb e he⟩
  refine ⟨?_, ?_, hremove, ?_⟩
  · intro st name sz st' tr h
    obtain ⟨ti, p, htr, hti⟩ := hcreate false st name sz st' tr h
    simp only [Bool.false_eq_true, if_false] at htr
    exact ⟨ti, p, htr, hti⟩
  · intro st name sz st' tr h
    obtain ⟨ti, p, htr, hti⟩ := hcreate true st name sz st' tr h
    simp only [if_true] at htr
    obtain ⟨q, htr⟩ := htr
    exact ⟨ti, p, q, htr, hti⟩
  · intro st name st' tr h
    simp only [recursivelyRemove] at h
    repeat' split at h
    any_goals simp only [BoolOut.ret.injEq, reduceCtorEq, Bool.false_eq_true, false_and,
      true_and] at h
    · obtain ⟨hst, htr⟩ := h
      subst htr
      exact Or.inl ⟨_, rfl⟩
    · exact Or.inr (hremove _ _ _ _ h)

/-- Witness for c7_write_order: the concrete remove of /f produced the
trace [bitmap, dirContent 1]. -/
theorem c7_witness :
    ∃ p, ([WEvent.bitmap, WEvent.dirContent 1] : List WEvent)
      = [WEvent.bitmap, WEvent.dirContent p] :=
  c7_write_order.2.2.1 st_afterCreateF ['/', 'f']
    (stateAfter (removeSingle st_afterCreateF ['/', 'f']) st_afterCreateF)
    [WEvent.bitmap, WEvent.dirContent 1] rfl

/-! ## Deallocation as bit clearing (C2) -/

theorem clearAll_nil (fm : List Bool) : clearAll fm [] = fm := rfl

theorem clearAll_cons (fm : List Bool) (a : Nat) (l : List Nat) :
    clearAll fm (a :: l) = clearAll (bmClear fm a) l := rfl

theorem clearAll_append (fm : List Bool) (a b : List Nat) :
    clearAll fm (a ++ b) = clearAll (clearAll fm a) b := by
  unfold clearAll
  exact List.foldl_append _ _ _ _

theorem clearAll_not_mem :
    ∀ (l : List Nat) (fm : List Bool) (b : Nat), b ∉ l →
      bmTest (clearAll fm l) b = bmTest fm b := by
  intro l
  induction l with
  | nil => intro fm b _; rfl
  | cons a rest ih =>
    intro fm b hb
    rw [clearAll_cons, ih _ _ (fun hmem => hb (List.mem_cons_of_mem _ hmem))]
    have hne : a ≠ b := fun he => hb (he ▸ List.mem_cons_self a rest)
    unfold bmTest bmClear
    simp [List.getD, List.getElem?_set_ne hne]

theorem deallocData_eq :
    ∀ (slots : List Int) (fm fm' : List Bool), deallocData fm slots = some fm' →
      fm' = clearAll fm (slots.map Int.toNat) := by
  intro slots
  induction slots with
  | nil =>
    intro fm fm' h
    simp only [deallocData] at h
    cases h
    rfl
  | cons s rest ih =>
    intro fm fm' h
    simp only [deallocData] at h
    split at h
    · exact absurd h (by simp)
    · split at h
      · rw [List.map_cons, clearAll_cons]
        exact ih _ _ h
      · exact absurd h (by simp)

theorem deallocChildren_eq (dealloc : FileHeader → List Bool → Option (List Bool))
    (f : FileHeader → List Nat)
    (hd : ∀ c fm fm', dealloc c fm = some fm' → fm' = clearAll fm (f c)) :
    ∀ (k : Nat) (cs : List FileHeader) (fm fm' : List Bool),
      deallocChildren dealloc k cs fm = some fm' →
      fm' = clearAll fm (((cs.take k).map f).flatten) := by
  intro k
  induction k with
  | zero =>
    intro cs fm fm' h
    simp only [deallocChildren] at h
    cases h
    rfl
  | succ k ih =>
    intro cs fm fm' h
    cases cs with
    | nil => simp [deallocChildren] at h
    | cons c cs =>
      simp only [deallocChildren] at h
      split at h
      · exact absurd h (by simp)
      · next fm1 hc =>
        rw [List.take_succ_cons, List.map_cons, List.flatten_cons, clearAll_append,
          ← hd _ _ _ hc]
        exact ih _ _ _ h

theorem fhDeallocate_eq :
    ∀ (fuel : Nat) (fh : FileHeader) (fm fm' : List Bool),
      fhDeallocate fuel fh fm = some fm' →
      fm' = clearAll fm (deallocSectorsF fuel fh) := by
  intro fuel
  induction fuel with
  | zero =>
    intro fh fm fm' h
    exact absurd h (by simp [fhDeallocate])
  | succ fuel ih =>
    intro fh fm fm' h
    simp only [fhDeallocate] at h
    split at h
    · exact absurd h (by simp)
    · next hw =>
      unfold deallocSectorsF
      simp only [hw]
      exact deallocData_eq _ _ _ h
    · next lv hw =>
      unfold deallocSectorsF
      simp only [hw]
      exact deallocChildren_eq _ _ (fun c fm fm' hc => ih c fm fm' hc) _ _ _ _ h

theorem raEntries_eq (recurse : List DirEntry → List Bool → Option (List Bool))
    (rspec : List DirEntry → List Nat)
    (hr : ∀ t fm fm', recurse t fm = some fm' → fm' = clearAll fm (rspec t))
    (hdrs : Nat → HdrRec) (dirs : Nat → List DirEntry) :
    ∀ (table : List DirEntry) (fm fm' : List Bool),
      raEntries recurse hdrs dirs table fm = some fm' →
      fm' = clearAll fm (raSectorsEntries rspec hdrs dirs table) := by
  intro table
  induction table with
  | nil =>
    intro fm fm' h
    simp only [raEntries] at h
    cases h
    rfl
  | cons e rest ih =>
    intro fm fm' h
    simp only [raEntries] at h
    unfold raSectorsEntries
    by_cases hu : e.inUse = true
    · rw [if_pos hu] at h ⊢
      by_cases hdir : e.isDir = true
      · rw [if_pos hdir] at h ⊢
        split at h
        · exact absurd h (by simp)
        · next fm1 hstep =>
          split at h
          · exact absurd h (by simp)
          · split at h
            · exact absurd h (by simp)
            · next fh hfetch =>
              split at h
              · exact absurd h (by simp)
              · next fm2 hde =>
                split at h
                · next htest =>
                  have h1 := hr _ _ _ hstep
                  have h2 := fhDeallocate_eq _ _ _ _ hde
                  have h3 := ih _ _ h
                  rw [clearAll_append, clearAll_append, clearAll_append, h3, h2, h1]
                  rfl
                · exact absurd h (by simp)
      · rw [if_neg hdir] at h ⊢
        split at h
        · next heqn =>
          exact absurd h (by simp)
        · next fm1 heq1 =>
          injection heq1 with hfm1
          subst hfm1
          split at h
          · exact absurd h (by simp)
          · split at h
            · exact absurd h (by simp)
            · next fh hfetch =>
              split at h
              · exact absurd h (by simp)
              · next fm2 hde =>
                split at h
                · next htest =>
                  have h2 := fhDeallocate_eq _ _ _ _ hde
                  have h3 := ih _ _ h
                  simp only [List.nil_append]
                  rw [clearAll_append, clearAll_append, h3, h2]
                  rfl
                · exact absurd h (by simp)
    · rw [if_neg hu] at h ⊢
      simp only [List.nil_append]
      exact ih _ _ h

theorem removeAll_eq (hdrs : Nat → HdrRec) (dirs : Nat → List DirEntry) :
    ∀ (fuel : Nat) (table : List DirEntry) (fm fm' : List Bool),
      removeAll hdrs dirs fuel table fm = some fm' →
      fm' = clearAll fm (raSectorsF hdrs dirs fuel table) := by
  intro fuel
  induction fuel with
  | zero =>
    intro table fm fm' h
    exact absurd h (by simp [removeAll])
  | succ fuel ih =>
    intro table fm fm' h
    simp only [removeAll] at h
    unfold raSectorsF
    exact raEntries_eq _ _ (fun t fm fm' hc => ih t fm fm' hc) _ _ _ _ _ h

/-- C2 amended: a recursive remove of an existing directory d returns
true, and the resulting state clears in the bitmap exactly the sectors of
the RemoveAll traversal of d's entries (each descendant's inode sector
and its deallocated data sectors), writes d's table back with every entry
cleared, and changes nothing else: the headers, every other directory
(in particular d's parent entry), and every bit outside the traversal -
including d's own inode sector bit and its table's data sector bits -
are unchanged, so the bitmap does not return to its post-format state. -/
theorem c2_recursive_remove_scope :
    ∀ (st : FSState) (name : List Char) (f : Finder) (fm' : List Bool),
      ffFind st name true = .res f → f.exist = true → ¬f.fhSector < 0 →
      removeAll st.hdrs st.dirs NumSectors (st.dirs f.fhSector.toNat) st.freeMapD
        = some fm' →
      recursivelyRemove st name =
        .ret true
          ⟨st.hdrs,
            upd st.dirs f.fhSector.toNat ((st.dirs f.fhSector.toNat).map clearEntry),
            clearAll st.freeMapD
              (raSectorsF st.hdrs st.dirs NumSectors (st.dirs f.fhSector.toNat))⟩
          [.dirContent f.fhSector, .bitmap] ∧
      (∀ b, b ∉ raSectorsF st.hdrs st.dirs NumSectors (st.dirs f.fhSector.toNat) →
        bmTest fm' b = bmTest st.freeMapD b) := by
  intro st name f fm' hfind hex hsec hra
  have hfm : fm' = clearAll st.freeMapD
      (raSectorsF st.hdrs st.dirs NumSectors (st.dirs f.fhSector.toNat)) :=
    removeAll_eq _ _ _ _ _ _ hra
  constructor
  · unfold recursivelyRemove
    rw [hfind]
    simp only [hex, if_true, if_neg hsec, hra, hfm]
  · intro b hb
    rw [hfm]
    exact clearAll_not_mem _ _ _ hb

/-- Witness for c2_recursive_remove_scope: the concrete scenario
format; mkdir /d; create /d/e 10; remove /d recursive. -/
theorem c2_witness :
    recursivelyRemove st_DE ['/', 'd'] =
      .ret true
        ⟨st_DE.hdrs, upd st_DE.dirs 13 ((st_DE.dirs 13).map clearEntry),
          clearAll st_DE.freeMapD
            (raSectorsF st_DE.hdrs st_DE.dirs NumSectors (st_DE.dirs 13))⟩
        [.dirContent 13, .bitmap] :=
  (c2_recursive_remove_scope st_DE ['/', 'd'] ⟨true, 1, 13, ['d']⟩
    (clearAll st_DE.freeMapD (raSectorsF st_DE.hdrs st_DE.dirs NumSectors (st_DE.dirs 13)))
    rfl rfl (by decide) rfl).1

/-- C1 amended: createFileOrDir returns false (leaving the state
untouched) exactly when the resolver finds an object of the same type
(file for create, directory for mkdir) at the path; an existing object of
the other type does not block creation, so after mkdir /a, create /a 1
succeeds and the new file coexists with the directory. -/
theorem c1_same_type_exists :
    ∀ (st : FSState) (name : List Char) (isDir : Bool) (sz : Int) (out : BoolOut),
      createFileOrDir st name isDir sz = out →
      ((∃ f, ffFind st name isDir = .res f ∧ f.exist = true) ↔ out = .ret false st []) := by
  intro st name isDir sz out hout
  constructor
  · rintro ⟨f, hfind, hex⟩
    rw [← hout]
    unfold createFileOrDir
    rw [hfind]
    simp only [hex, if_true]
  · intro hret
    rw [hret] at hout
    simp only [createFileOrDir] at hout
    repeat' split at hout
    any_goals simp only [BoolOut.ret.injEq, reduceCtorEq, Bool.true_eq_false, false_and,
      true_and, and_false] at hout
    rename_i f hfind hex
    exact ⟨f, hfind, hex⟩

/-- Witness for c1_same_type_exists: a second mkdir /a fails with no
change because a directory named a already exists. -/
theorem c1_witness :
    createFileOrDir st_afterMkdirA ['/', 'a'] true (-1)
      = .ret false st_afterMkdirA [] :=
  (c1_same_type_exists st_afterMkdirA ['/', 'a'] true (-1) _ rfl).mp
    ⟨⟨true, 1, 13, ['a']⟩, rfl, rfl⟩

/-- C9 amended: for every path whose resolution as a file reports
not-found (in particular a path just removed), the non-recursive remove
returns false with no disk write; the root path "/" instead aborts on the
resolver's ASSERT(isDir). -/
theorem c9_remove_missing :
    (∀ (st : FSState) (name : List Char) (f : Finder),
        ffFind st name false = .res f → f.exist = false →
        fsRemove st name false = .ret false st []) ∧
    (∀ st : FSState, fsRemove st ['/'] false = .abort) := by
  constructor
  · intro st name f hfind hex
    show removeSingle st name = .ret false st []
    unfold removeSingle
    rw [hfind]
    simp [hex]
  · intro st
    rfl

/-- Witness for c9_remove_missing: removing the absent file /z on a fresh
disk returns false without any write. -/
theorem c9_witness :
    fsRemove formatState ['/', 'z'] false = .ret false formatState [] :=
  c9_remove_missing.1 formatState ['/', 'z'] ⟨false, 1, -1, ['z']⟩ rfl rfl

/-- C8 amended: a path of byte length at least PATH_NAME_MAX_LEN = 256
resolves to not-found with no parent recorded; remove (single or
recursive) then returns false with no disk write, but create and mkdir
abort on the parent-exists ASSERT instead of failing silently; a path of
length exactly 255 is not rejected for length. -/
theorem c8_path_length :
    (∀ (st : FSState) (name : List Char) (isDir : Bool),
        PATH_NAME_MAX_LEN ≤ name.length →
        ffFind st name isDir = .res ⟨false, -1, -1, (splitPath name).1.getLastD []⟩) ∧
    (∀ (st : FSState) (name : List Char) (recursive : Bool),
        PATH_NAME_MAX_LEN ≤ name.length →
        fsRemove st name recursive = .ret false st []) ∧
    (∀ (st : FSState) (name : List Char) (isDir : Bool) (sz : Int),
        PATH_NAME_MAX_LEN ≤ name.length →
        createFileOrDir st name isDir sz = .abort) ∧
    (∀ name : List Char, name.length = 255 → (splitPath name).2 = false) := by
  have hfind : ∀ (st : FSState) (name : List Char) (isDir : Bool),
      PATH_NAME_MAX_LEN ≤ name.length →
      ffFind st name isDir = .res ⟨false, -1, -1, (splitPath name).1.getLastD []⟩ := by
    intro st name isDir hlen
    unfold ffFind
    have h2 : (splitPath name).2 = true := by
      unfold splitPath
      exact decide_eq_true hlen
    rw [h2]
    simp
  refine ⟨hfind, ?_, ?_, ?_⟩
  · intro st name recursive hlen
    cases recursive
    · show removeSingle st name = .ret false st []
      unfold removeSingle
      rw [hfind st name false hlen]
      simp
    · show recursivelyRemove st name = .ret false st []
      unfold recursivelyRemove
      rw [hfind st name true hlen]
      simp only [Finder.exist, Bool.false_eq_true, if_false]
      unfold removeSingle
      rw [hfind st name false hlen]
      simp
  · intro st name isDir sz hlen
    unfold createFileOrDir
    rw [hfind st name isDir hlen]
    simp
  · intro name hlen
    unfold splitPath
    refine decide_eq_false ?_
    have h256 : PATH_NAME_MAX_LEN = 256 := rfl
    omega

/-- Witness for c8_path_length: removing a 256-byte path returns false
with no write. -/
theorem c8_witness :
    fsRemove formatState ('/' :: List.replicate 255 'a') false
      = .ret false formatState [] :=
  c8_path_length.2.1 formatState ('/' :: List.replicate 255 'a') false (by decide)

/-- C10: Open has no error return: when the path resolves to neither a
file nor a directory the ASSERT fails and the process aborts, and a
handle is returned only when one of the two resolutions succeeded, with a
nonnegative header sector. -/
theorem c10_open_asserts :
    (∀ (st : FSState) (name : List Char) (f1 f2 : Finder),
        ffFind st name false = .res f1 → f1.exist = false →
        ffFind st name true = .res f2 → f2.exist = false →
        fsOpen st name = .abort) ∧
    (∀ (st : FSState) (name : List Char) (s : Int),
        fsOpen st name = .handle s →
        0 ≤ s ∧ ∃ f, (ffFind st name false = .res f ∨ ffFind st name true = .res f) ∧
          f.exist = true ∧ f.fhSector = s) := by
  constructor
  · intro st name f1 f2 h1 hex1 h2 hex2
    unfold fsOpen
    rw [h1]
    simp only [hex1, Bool.false_eq_true, if_false]
    rw [h2]
    simp [hex2]
  · intro st name s h
    unfold fsOpen at h
    repeat' split at h
    any_goals simp only [OpenOut.handle.injEq, reduceCtorEq] at h
    · next hex hge =>
      rename_i f1 hfind1
      exact ⟨h ▸ hge, f1, Or.inl hfind1, hex, h⟩
    · next hcond =>
      rename_i f1 hfind1 hex1 f2 hfind2
      rw [Bool.and_eq_true] at hcond
      refine ⟨h ▸ (by simpa using hcond.2), f2, Or.inr hfind2, hcond.1, h⟩

/-- Witness for c10_open_asserts: Open on the absent path /z on a fresh
disk aborts. -/
theorem c10_witness : fsOpen formatState ['/', 'z'] = .abort :=
  c10_open_asserts.1 formatState ['/', 'z'] ⟨false, 1, -1, ['z']⟩ ⟨false, 1, -1, ['z']⟩
    rfl rfl rfl rfl
